import Mathlib

/-!
Shallow embedding of the `file_transfer` crate (src/lib.rs, src/read_exact.rs).

Byte streams are modelled as lists of bytes (`List Nat`, each element a byte
value): reading consumes from the front of the list, writing appends to a
written-bytes list.  Fallible I/O returns `Except TFail`; Rust panics
(`assert_eq!`, `.unwrap()`) are modelled as distinguished `TFail` outcomes so
that claims about fail-fast behaviour are statable.  Wall-clock time and
`f64` statistics are modelled over `ℚ`, with the measured elapsed seconds
passed in explicitly.
-/

namespace FileTransfer

/-- Byte stream: the bytes still available to read, front first. -/
abbrev Stream := List Nat

/-- Non-success outcomes.  `unexpectedEof` models `io::ErrorKind::UnexpectedEof`
(from `read_u64`, `read_u8`, `read_exact` hitting end of stream);
`assertFailed` models a Rust `assert_eq!` panic; `tryFromPanic` models
`usize::try_from(..).unwrap()` panicking. -/
inductive TFail where
  | unexpectedEof
  | assertFailed
  | tryFromPanic
deriving DecidableEq

/-- The completion-handshake byte, `const CLOSE: u8 = 0`. -/
def CLOSE : Nat := 0

/-- Big-endian 8-byte encoding of a `u64`, as written by `write_u64`. -/
def u64encode (n : Nat) : List Nat :=
  [n / 2 ^ 56 % 256, n / 2 ^ 48 % 256, n / 2 ^ 40 % 256, n / 2 ^ 32 % 256,
   n / 2 ^ 24 % 256, n / 2 ^ 16 % 256, n / 2 ^ 8 % 256, n % 256]

/-- Big-endian value of a byte list (used on the 8 bytes taken by `read_u64`). -/
def u64decode (bs : List Nat) : Nat :=
  bs.foldl (fun acc b => acc * 256 + b) 0

/-- Model of `read_u64`: take exactly 8 bytes from the stream; `UnexpectedEof` if the
stream ends before 8 bytes are available. -/
def readU64 (s : Stream) : Except TFail (Nat × Stream) :=
  if 8 ≤ s.length then .ok (u64decode (s.take 8), s.drop 8)
  else .error .unexpectedEof

/-- Model of `read_u8`: take exactly 1 byte from the stream. -/
def readU8 (s : Stream) : Except TFail (Nat × Stream) :=
  match s with
  | [] => .error .unexpectedEof
  | b :: rest => .ok (b, rest)

/-- Model of `usize::try_from(v).unwrap()`: the platform word size is made explicit as
`usizeMax` (the largest value a `usize` holds); the `unwrap` panics when the
`u64` value exceeds it. -/
def usizeTryFromUnwrap (usizeMax v : Nat) : Except TFail Nat :=
  if v ≤ usizeMax then .ok v else .error .tryFromPanic

/-- The `struct ReadExact<R>` state, fields `read: R` and `remaining: usize`, with the underlying
reader `R` modelled as the byte stream it still holds. -/
structure ReadExact where
  read : Stream
  remaining : Nat
deriving DecidableEq

/-- Constructor `ReadExact::new(read, bytes)`. -/
def ReadExact.new (read : Stream) (bytes : Nat) : ReadExact :=
  ⟨read, bytes⟩

/-- Accessor `ReadExact::into_inner`, recovering the underlying reader. -/
def ReadExact.into_inner (r : ReadExact) : Stream :=
  r.read

/-- Model of `read_exact` on the underlying stream (`AsyncReadExt`): succeeds
with exactly `n` bytes, or fails with `UnexpectedEof` when fewer than `n`
bytes remain before end of stream. -/
def readExactUnderlying (s : Stream) (n : Nat) : Except TFail (List Nat × Stream) :=
  if n ≤ s.length then .ok (s.take n, s.drop n)
  else .error .unexpectedEof

/-- The `read` method of `impl AsyncAsyncRead for ReadExact`: with a buffer of
size `k`, compute `bytes = self.remaining.min(buf.len())`; if zero return 0
bytes at once; otherwise `read_exact` that many from the underlying stream and
decrement `remaining`.  Returns the bytes placed in the buffer and the updated
adapter. -/
def ReadExact.readOp (r : ReadExact) (k : Nat) : Except TFail (List Nat × ReadExact) :=
  let bytes := min r.remaining k
  if bytes = 0 then .ok ([], r)
  else
    match readExactUnderlying r.read bytes with
    | .error e => .error e
    | .ok (data, rest) => .ok (data, ⟨rest, r.remaining - bytes⟩)

theorem readOp_zero {r : ReadExact} {k : Nat} (h : min r.remaining k = 0) :
    r.readOp k = .ok ([], r) := by
  simp [ReadExact.readOp, h]

theorem readOp_success {r : ReadExact} {k : Nat} (h0 : min r.remaining k ≠ 0)
    (hlen : min r.remaining k ≤ r.read.length) :
    r.readOp k = .ok (r.read.take (min r.remaining k),
      ⟨r.read.drop (min r.remaining k), r.remaining - min r.remaining k⟩) := by
  simp [ReadExact.readOp, readExactUnderlying, h0, hlen]

theorem readOp_eof {r : ReadExact} {k : Nat} (h0 : min r.remaining k ≠ 0)
    (hlen : r.read.length < min r.remaining k) :
    r.readOp k = .error .unexpectedEof := by
  simp [ReadExact.readOp, readExactUnderlying, h0, Nat.not_le.mpr hlen]

theorem readOp_remaining_lt {r : ReadExact} {k : Nat} {data : List Nat}
    {r' : ReadExact} (hr : r.readOp k = .ok (data, r'))
    (hd : ¬data.length = 0) : r'.remaining < r.remaining := by
  by_cases h0 : min r.remaining k = 0
  · rw [readOp_zero h0] at hr
    injection hr with h
    cases h
    simp at hd
  · by_cases hlen : min r.remaining k ≤ r.read.length
    · rw [readOp_success h0 hlen] at hr
      injection hr with h
      have h2 : r' = ⟨r.read.drop (min r.remaining k),
          r.remaining - min r.remaining k⟩ := (congrArg Prod.snd h).symm
      have hmin : min r.remaining k ≤ r.remaining := Nat.min_le_left _ _
      rw [h2]
      simp only []
      omega
    · rw [readOp_eof h0 (Nat.not_le.mp hlen)] at hr
      exact Except.noConfusion hr

/-- The drive loop of `tokio::io::copy` run against the `PollRead`-wrapped
`ReadExact`: repeatedly read with an internal buffer of size `bufSize`,
appending the bytes read to the output, until a read returns 0 bytes
(end of stream).  Returns the bytes copied and the final adapter. -/
def copy (r : ReadExact) (bufSize : Nat) : Except TFail (List Nat × ReadExact) :=
  match hr : r.readOp bufSize with
  | .error e => .error e
  | .ok (data, r') =>
    if hd : data.length = 0 then .ok ([], r')
    else
      match copy r' bufSize with
      | .error e => .error e
      | .ok (d2, r'') => .ok (data ++ d2, r'')
termination_by r.remaining
decreasing_by
  exact readOp_remaining_lt hr hd

/-- A sequence of `read` calls against a `ReadExact`, with the requested
buffer sizes given by `ks`; returns all bytes delivered and the final
adapter. -/
def runReads (r : ReadExact) : List Nat → Except TFail (List Nat × ReadExact)
  | [] => .ok ([], r)
  | k :: ks =>
    match r.readOp k with
    | .error e => .error e
    | .ok (data, r') =>
      match runReads r' ks with
      | .error e => .error e
      | .ok (d2, r'') => .ok (data ++ d2, r'')

/-- Model of `push_file(source_file, write)`.  The source file is modelled by the length
its metadata reports (`metaLen`, the `u64` written as the length prefix) and
the bytes the buffered copy subsequently streams out (`content`); for an
unmodified file `metaLen = content.length`.  Returns the byte count and the
bytes written to the write half; the `assert_eq!(bytes, read_bytes)` panic is
`TFail.assertFailed`. -/
def push_file (metaLen : Nat) (content : List Nat) (usizeMax : Nat) :
    Except TFail (Nat × List Nat) :=
  let wire := u64encode metaLen ++ content
  let read_bytes := content.length
  if metaLen = read_bytes then
    match usizeTryFromUnwrap usizeMax read_bytes with
    | .error e => .error e
    | .ok n => .ok (n, wire)
  else .error .assertFailed

/-- Model of `pull_file(output_file, read)`: read the 8-byte length prefix, convert it
to `usize`, wrap the read half in `ReadExact` capped at that length, copy into
the destination file until end of stream, and recover the underlying reader.
Returns the byte count, the destination file's bytes, and the recovered
reader. -/
def pull_file (stream : Stream) (usizeMax bufSize : Nat) :
    Except TFail (Nat × List Nat × Stream) :=
  match readU64 stream with
  | .error e => .error e
  | .ok (bytes, s1) =>
    match usizeTryFromUnwrap usizeMax bytes with
    | .error e => .error e
    | .ok len =>
      match copy (ReadExact.new s1 len) bufSize with
      | .error e => .error e
      | .ok (data, r') =>
        match usizeTryFromUnwrap usizeMax data.length with
        | .error e => .error e
        | .ok written => .ok (written, data, r'.into_inner)

/-- The `FileTransferStats` record, with the two `f64` fields over `ℚ`. -/
structure FileTransferStats where
  bytes : Nat
  throughput_mib_s : ℚ
  latency_ms : ℚ
deriving DecidableEq

/-- The stats computation at the end of `perform`: given the byte count and
the measured elapsed seconds, `throughput = bytes / secs`,
`throughput_mib_s = throughput / 1024 / 1024`, `latency_ms = secs * 1000`. -/
def mkStats (bytes : Nat) (elapsedSecs : ℚ) : FileTransferStats :=
  let throughput : ℚ := (bytes : ℚ) / elapsedSecs
  let throughput_mib_s := throughput / 1024 / 1024
  let latency_ms := elapsedSecs * 1000
  ⟨bytes, throughput_mib_s, latency_ms⟩

/-- The `enum FileTransferCommand`, with each variant's path argument replaced by
the modelled file it refers to (`Push` carries the source file's metadata
length and streamed content; `Pull` targets a fresh destination file). -/
inductive FileTransferCommand where
  | Push (metaLen : Nat) (content : List Nat)
  | Pull
deriving DecidableEq

/-- The `FileTransferResult` record (stats, read, write): the write half is modelled as
the list of bytes this side wrote to it, the read half as the unread rest of
the incoming stream. -/
structure FileTransferResult where
  stats : FileTransferStats
  read : Stream
  write : List Nat
deriving DecidableEq

/-- Model of `FileTransferCommand::perform(read, write)`.  Push: `push_file` to the
write half, then read one byte from the read half and `assert_eq!(msg, CLOSE)`.
Pull: `pull_file` from the read half, then write `CLOSE` to the write half.
Both finish by computing stats from the byte count and the elapsed time
(`elapsedSecs`, the measured duration made explicit). -/
def FileTransferCommand.perform (cmd : FileTransferCommand) (readStream : Stream)
    (usizeMax bufSize : Nat) (elapsedSecs : ℚ) :
    Except TFail FileTransferResult :=
  match cmd with
  | .Push metaLen content =>
    match push_file metaLen content usizeMax with
    | .error e => .error e
    | .ok (bytes, wire) =>
      match readU8 readStream with
      | .error e => .error e
      | .ok (msg, rest) =>
        if msg = CLOSE then .ok ⟨mkStats bytes elapsedSecs, rest, wire⟩
        else .error .assertFailed
  | .Pull =>
    match pull_file readStream usizeMax bufSize with
    | .error e => .error e
    | .ok (bytes, _data, rest) =>
      .ok ⟨mkStats bytes elapsedSecs, rest, [CLOSE]⟩

theorem copy_step_zero {r : ReadExact} {bufSize : Nat}
    (h : min r.remaining bufSize = 0) : copy r bufSize = .ok ([], r) := by
  rw [copy.eq_def]
  split
  · rename_i e hr
    rw [readOp_zero h] at hr
    exact Except.noConfusion hr
  · rename_i data r' hr
    rw [readOp_zero h] at hr
    injection hr with heq
    cases heq
    simp

theorem copy_step_eof {r : ReadExact} {bufSize : Nat}
    (h0 : min r.remaining bufSize ≠ 0)
    (hlen : r.read.length < min r.remaining bufSize) :
    copy r bufSize = .error .unexpectedEof := by
  rw [copy.eq_def]
  split
  · rename_i e hr
    rw [readOp_eof h0 hlen] at hr
    injection hr with heq
    rw [heq]
  · rename_i data r' hr
    rw [readOp_eof h0 hlen] at hr
    exact Except.noConfusion hr

theorem copy_step_go {r : ReadExact} {bufSize : Nat}
    (h0 : min r.remaining bufSize ≠ 0)
    (hlen : min r.remaining bufSize ≤ r.read.length) :
    copy r bufSize =
      match copy ⟨r.read.drop (min r.remaining bufSize),
          r.remaining - min r.remaining bufSize⟩ bufSize with
      | .error e => .error e
      | .ok (d2, r'') => .ok (r.read.take (min r.remaining bufSize) ++ d2, r'') := by
  rw [copy.eq_def]
  split
  · rename_i e hr
    rw [readOp_success h0 hlen] at hr
    exact Except.noConfusion hr
  · rename_i data r' hr
    rw [readOp_success h0 hlen] at hr
    injection hr with heq
    have hdata : data = r.read.take (min r.remaining bufSize) :=
      (congrArg Prod.fst heq).symm
    have hr' : r' = (⟨r.read.drop (min r.remaining bufSize),
        r.remaining - min r.remaining bufSize⟩ : ReadExact) :=
      (congrArg Prod.snd heq).symm
    subst hdata
    subst hr'
    have hne : ¬(r.read.take (min r.remaining bufSize)).length = 0 := by
      rw [List.length_take]
      omega
    rw [dif_neg hne]

theorem copy_step_go_ok {r : ReadExact} {bufSize : Nat} {d2 : List Nat}
    {r'' : ReadExact} (h0 : min r.remaining bufSize ≠ 0)
    (hlen : min r.remaining bufSize ≤ r.read.length)
    (hrec : copy ⟨r.read.drop (min r.remaining bufSize),
        r.remaining - min r.remaining bufSize⟩ bufSize = .ok (d2, r'')) :
    copy r bufSize = .ok (r.read.take (min r.remaining bufSize) ++ d2, r'') := by
  rw [copy_step_go h0 hlen, hrec]

theorem copy_step_go_err {r : ReadExact} {bufSize : Nat} {e : TFail}
    (h0 : min r.remaining bufSize ≠ 0)
    (hlen : min r.remaining bufSize ≤ r.read.length)
    (hrec : copy ⟨r.read.drop (min r.remaining bufSize),
        r.remaining - min r.remaining bufSize⟩ bufSize = .error e) :
    copy r bufSize = .error e := by
  rw [copy_step_go h0 hlen, hrec]

/-- When the underlying stream holds at least `remaining` bytes, the copy
drains exactly `remaining` bytes and leaves the rest untouched. -/
theorem copy_drain {bufSize : Nat} (hb : 0 < bufSize) :
    ∀ (n : Nat) (r : ReadExact), r.remaining = n →
      r.remaining ≤ r.read.length →
      copy r bufSize = .ok (r.read.take r.remaining, ⟨r.read.drop r.remaining, 0⟩) := by
  intro n
  induction n using Nat.strong_induction_on with
  | _ n ih =>
    intro r hn hle
    by_cases h0 : r.remaining = 0
    · rw [copy_step_zero (by simp [h0])]
      cases r with
      | mk rd rem =>
        simp only at h0
        subst h0
        simp
    · have hmin0 : min r.remaining bufSize ≠ 0 := by
        omega
      have hminle : min r.remaining bufSize ≤ r.read.length :=
        le_trans (Nat.min_le_left _ _) hle
      have hm := Nat.min_le_left r.remaining bufSize
      have hlt : r.remaining - min r.remaining bufSize < n := by omega
      have hrec := ih _ hlt (⟨r.read.drop (min r.remaining bufSize),
          r.remaining - min r.remaining bufSize⟩ : ReadExact) rfl
        (by simp; omega)
      have hstep := copy_step_go_ok hmin0 hminle hrec
      rw [hstep]
      have h1 : r.read.take (min r.remaining bufSize) ++
          (r.read.drop (min r.remaining bufSize)).take
            (r.remaining - min r.remaining bufSize) = r.read.take r.remaining := by
        rw [← List.take_add]
        congr 1
        omega
      have h2 : (r.read.drop (min r.remaining bufSize)).drop
          (r.remaining - min r.remaining bufSize) = r.read.drop r.remaining := by
        rw [List.drop_drop]
        congr 1
        omega
      simp only at hstep ⊢
      rw [h1, h2]

/-- When the underlying stream holds fewer than `remaining` bytes, the copy
fails with `UnexpectedEof`. -/
theorem copy_short {bufSize : Nat} (hb : 0 < bufSize) :
    ∀ (n : Nat) (r : ReadExact), r.remaining = n →
      r.read.length < r.remaining →
      copy r bufSize = .error .unexpectedEof := by
  intro n
  induction n using Nat.strong_induction_on with
  | _ n ih =>
    intro r hn hlt
    have h0 : r.remaining ≠ 0 := by omega
    have hmin0 : min r.remaining bufSize ≠ 0 := by omega
    by_cases hcase : r.read.length < min r.remaining bufSize
    · exact copy_step_eof hmin0 hcase
    · push_neg at hcase
      have hm := Nat.min_le_left r.remaining bufSize
      have hlt2 : r.remaining - min r.remaining bufSize < n := by omega
      have hrec := ih _ hlt2 (⟨r.read.drop (min r.remaining bufSize),
          r.remaining - min r.remaining bufSize⟩ : ReadExact) rfl
        (by simp; omega)
      exact copy_step_go_err hmin0 hcase hrec

theorem u64encode_length (n : Nat) : (u64encode n).length = 8 := by
  simp [u64encode]

theorem u64decode_encode {n : Nat} (h : n < 2 ^ 64) :
    u64decode (u64encode n) = n := by
  simp only [u64encode, u64decode, List.foldl]
  omega

theorem readU64_ok {s : Stream} (h : 8 ≤ s.length) :
    readU64 s = .ok (u64decode (s.take 8), s.drop 8) := by
  simp [readU64, h]

theorem readU64_short {s : Stream} (h : s.length < 8) :
    readU64 s = .error .unexpectedEof := by
  simp [readU64, Nat.not_le.mpr h]

theorem push_file_ok {metaLen : Nat} {content : List Nat} {usizeMax : Nat}
    (hm : metaLen = content.length) (hu : content.length ≤ usizeMax) :
    push_file metaLen content usizeMax =
      .ok (content.length, u64encode metaLen ++ content) := by
  simp [push_file, usizeTryFromUnwrap, hm, hu]

theorem push_file_mismatch {metaLen : Nat} {content : List Nat} {usizeMax : Nat}
    (hm : metaLen ≠ content.length) :
    push_file metaLen content usizeMax = .error .assertFailed := by
  simp [push_file, hm]

theorem push_file_ok_inv {metaLen : Nat} {content : List Nat} {usizeMax n : Nat}
    {w : List Nat} (h : push_file metaLen content usizeMax = .ok (n, w)) :
    metaLen = content.length ∧ n = content.length ∧
      w = u64encode metaLen ++ content := by
  by_cases hm : metaLen = content.length
  · by_cases hu : content.length ≤ usizeMax
    · rw [push_file_ok hm hu] at h
      injection h with heq
      have h1 : n = content.length := (congrArg Prod.fst heq).symm
      have h2 : w = u64encode metaLen ++ content := (congrArg Prod.snd heq).symm
      exact ⟨hm, h1, h2⟩
    · rw [show push_file metaLen content usizeMax = .error .tryFromPanic by
        simp [push_file, usizeTryFromUnwrap, hm, hu]] at h
      exact Except.noConfusion h
  · rw [push_file_mismatch hm] at h
    exact Except.noConfusion h

/-- Successful `pull_file`: 8-byte prefix available, declared length fits in
`usize`, and the stream holds at least that many payload bytes. -/
theorem pull_file_drain {stream : Stream} {usizeMax bufSize : Nat}
    (hb : 0 < bufSize) (h8 : 8 ≤ stream.length)
    (hmax : u64decode (stream.take 8) ≤ usizeMax)
    (hlen : u64decode (stream.take 8) ≤ (stream.drop 8).length) :
    pull_file stream usizeMax bufSize =
      .ok (u64decode (stream.take 8),
        (stream.drop 8).take (u64decode (stream.take 8)),
        (stream.drop 8).drop (u64decode (stream.take 8))) := by
  unfold pull_file
  rw [readU64_ok h8]
  simp only [usizeTryFromUnwrap, if_pos hmax]
  have hcopy := copy_drain hb _
    (ReadExact.new (stream.drop 8) (u64decode (stream.take 8))) rfl
    (by simpa [ReadExact.new] using hlen)
  simp only [ReadExact.new] at hcopy ⊢
  rw [hcopy]
  have htk : ((stream.drop 8).take (u64decode (stream.take 8))).length =
      u64decode (stream.take 8) := by
    rw [List.length_take]
    omega
  simp [htk, hmax, ReadExact.into_inner]

/-- Behaviour of `pull_file` when the stream cannot supply the first 8 bytes. -/
theorem pull_file_no_header {stream : Stream} {usizeMax bufSize : Nat}
    (h8 : stream.length < 8) :
    pull_file stream usizeMax bufSize = .error .unexpectedEof := by
  unfold pull_file
  rw [readU64_short h8]

/-- Behaviour of `pull_file` when the declared length exceeds the platform word. -/
theorem pull_file_toobig {stream : Stream} {usizeMax bufSize : Nat}
    (h8 : 8 ≤ stream.length)
    (hmax : usizeMax < u64decode (stream.take 8)) :
    pull_file stream usizeMax bufSize = .error .tryFromPanic := by
  unfold pull_file
  rw [readU64_ok h8]
  simp only [usizeTryFromUnwrap, if_neg (Nat.not_le.mpr hmax)]

/-- Behaviour of `pull_file` when the stream delivers fewer payload bytes than declared. -/
theorem pull_file_short {stream : Stream} {usizeMax bufSize : Nat}
    (hb : 0 < bufSize) (h8 : 8 ≤ stream.length)
    (hmax : u64decode (stream.take 8) ≤ usizeMax)
    (hlen : (stream.drop 8).length < u64decode (stream.take 8)) :
    pull_file stream usizeMax bufSize = .error .unexpectedEof := by
  unfold pull_file
  rw [readU64_ok h8]
  simp only [usizeTryFromUnwrap, if_pos hmax]
  have hcopy := copy_short hb _
    (ReadExact.new (stream.drop 8) (u64decode (stream.take 8))) rfl
    (by simpa [ReadExact.new] using hlen)
  simp only [ReadExact.new] at hcopy ⊢
  rw [hcopy]

theorem readOp_ok_inv {r : ReadExact} {k : Nat} {data : List Nat}
    {r' : ReadExact} (h : r.readOp k = .ok (data, r')) :
    data.length ≤ r.remaining ∧ r'.read = r.read.drop data.length ∧
      r'.remaining = r.remaining - data.length := by
  by_cases h0 : min r.remaining k = 0
  · rw [readOp_zero h0] at h
    injection h with heq
    have h1 : data = [] := (congrArg Prod.fst heq).symm
    have h2 : r' = r := (congrArg Prod.snd heq).symm
    subst h1
    subst h2
    simp
  · by_cases hlen : min r.remaining k ≤ r.read.length
    · rw [readOp_success h0 hlen] at h
      injection h with heq
      have h1 : data = r.read.take (min r.remaining k) :=
        (congrArg Prod.fst heq).symm
      have h2 : r' = (⟨r.read.drop (min r.remaining k),
          r.remaining - min r.remaining k⟩ : ReadExact) :=
        (congrArg Prod.snd heq).symm
      subst h1
      subst h2
      have hlt : (r.read.take (min r.remaining k)).length = min r.remaining k := by
        rw [List.length_take]
        omega
      refine ⟨?_, ?_, ?_⟩
      · rw [hlt]
        omega
      · rw [hlt]
      · rw [hlt]
    · rw [readOp_eof h0 (Nat.not_le.mp hlen)] at h
      exact Except.noConfusion h

theorem runReads_inv {ks : List Nat} :
    ∀ {r : ReadExact} {out : List Nat × ReadExact}, runReads r ks = .ok out →
      out.1.length ≤ r.remaining ∧ out.2.read = r.read.drop out.1.length ∧
        out.2.remaining = r.remaining - out.1.length := by
  induction ks with
  | nil =>
    intro r out h
    simp only [runReads] at h
    injection h with heq
    subst heq
    simp
  | cons k ks ih =>
    intro r out h
    simp only [runReads] at h
    split at h
    · exact Except.noConfusion h
    · rename_i data r' hro
      split at h
      · exact Except.noConfusion h
      · rename_i d2 r'' hrun
        injection h with heq
        subst heq
        have h1 := readOp_ok_inv hro
        have h2 := ih hrun
        simp only at h1 h2 ⊢
        obtain ⟨hl1, hd1, hm1⟩ := h1
        obtain ⟨hl2, hd2, hm2⟩ := h2
        refine ⟨?_, ?_, ?_⟩
        · simp only [List.length_append]
          omega
        · simp only [List.length_append]
          rw [hd2, hd1, List.drop_drop]
        · simp only [List.length_append]
          omega

theorem readU64_ok_inv {s : Stream} {L : Nat} {s1 : Stream}
    (h : readU64 s = .ok (L, s1)) :
    8 ≤ s.length ∧ L = u64decode (s.take 8) ∧ s1 = s.drop 8 := by
  by_cases h8 : 8 ≤ s.length
  · rw [readU64_ok h8] at h
    injection h with heq
    exact ⟨h8, (congrArg Prod.fst heq).symm, (congrArg Prod.snd heq).symm⟩
  · rw [readU64_short (Nat.not_le.mp h8)] at h
    exact Except.noConfusion h

/-- Every successful `perform` computes its stats with `mkStats` from the
transferred byte count and the measured elapsed seconds. -/
theorem perform_ok_stats {cmd : FileTransferCommand} {readStream : Stream}
    {usizeMax bufSize : Nat} {t : ℚ} {res : FileTransferResult}
    (h : cmd.perform readStream usizeMax bufSize t = .ok res) :
    res.stats = mkStats res.stats.bytes t := by
  cases cmd with
  | Push metaLen content =>
    simp only [FileTransferCommand.perform] at h
    split at h
    · exact Except.noConfusion h
    · split at h
      · exact Except.noConfusion h
      · split at h
        · injection h with heq
          subst heq
          simp [mkStats]
        · exact Except.noConfusion h
  | Pull =>
    simp only [FileTransferCommand.perform] at h
    split at h
    · exact Except.noConfusion h
    · injection h with heq
      subst heq
      simp [mkStats]

theorem mkStats_bytes (b : Nat) (t : ℚ) : (mkStats b t).bytes = b := rfl

/-- C1: for every file content C of length L, pushing C writes exactly the
8-byte length prefix followed by C, pulling that wire stream yields a
destination file byte-identical to C with byte count L, the connected pair of
perform operations (Pull consuming Push's wire bytes, Push consuming Pull's
CompletionSignal) both succeed, and both report stats with bytes = L. -/
theorem claim_C1 (C : List Nat) (usizeMax bufSize : Nat) (elapsed : ℚ)
    (h64 : C.length < 2 ^ 64) (hu : C.length ≤ usizeMax) (hb : 0 < bufSize) :
    push_file C.length C usizeMax = .ok (C.length, u64encode C.length ++ C) ∧
    pull_file (u64encode C.length ++ C) usizeMax bufSize = .ok (C.length, C, []) ∧
    FileTransferCommand.perform .Pull (u64encode C.length ++ C) usizeMax bufSize
      elapsed = .ok ⟨mkStats C.length elapsed, [], [CLOSE]⟩ ∧
    FileTransferCommand.perform (.Push C.length C) [CLOSE] usizeMax bufSize
      elapsed = .ok ⟨mkStats C.length elapsed, [], u64encode C.length ++ C⟩ ∧
    (mkStats C.length elapsed).bytes = C.length := by
  have hpush := push_file_ok rfl hu
  have htake : (u64encode C.length ++ C).take 8 = u64encode C.length :=
    List.take_left' (u64encode_length _)
  have hdrop : (u64encode C.length ++ C).drop 8 = C :=
    List.drop_left' (u64encode_length _)
  have hdec : u64decode ((u64encode C.length ++ C).take 8) = C.length := by
    rw [htake, u64decode_encode h64]
  have h8 : 8 ≤ (u64encode C.length ++ C).length := by
    rw [List.length_append, u64encode_length]
    omega
  have hlen : u64decode ((u64encode C.length ++ C).take 8) ≤
      ((u64encode C.length ++ C).drop 8).length := by
    rw [hdec, hdrop]
  have hmax2 : u64decode ((u64encode C.length ++ C).take 8) ≤ usizeMax := by
    rw [hdec]
    exact hu
  have hpull := pull_file_drain hb h8 hmax2 hlen
  rw [hdec, hdrop, List.take_length, List.drop_length] at hpull
  refine ⟨hpush, hpull, ?_, ?_, rfl⟩
  · simp only [FileTransferCommand.perform]
    rw [hpull]
  · simp only [FileTransferCommand.perform]
    rw [hpush]
    simp [readU8, CLOSE]

theorem claim_C1_witness :
    push_file 2 [3, 7] 100 = .ok (2, u64encode 2 ++ [3, 7]) ∧
    pull_file (u64encode 2 ++ [3, 7]) 100 8192 = .ok (2, [3, 7], []) := by
  have h := claim_C1 [3, 7] 100 8192 1 (by decide) (by decide) (by decide)
  exact ⟨h.1, h.2.1⟩

/-- C2: the Bounded Reader consumes at most its cap from the underlying
stream over any sequence of reads (the recovered reader sits exactly after
the consumed bytes), a reader with remaining = 0 answers every read with 0
bytes without touching the underlying stream, and a reader capped at the
payload length over payload ++ trailing bytes yields exactly the payload,
with into_inner recovering the stream positioned at the trailing bytes. -/
theorem claim_C2 (r : ReadExact) (ks : List Nat) (payload trail : List Nat)
    (bufSize : Nat) :
    (∀ k, r.remaining = 0 → r.readOp k = .ok ([], r)) ∧
    (∀ out, runReads r ks = .ok out →
      out.1.length ≤ r.remaining ∧
      out.2.into_inner = r.read.drop out.1.length) ∧
    (0 < bufSize →
      copy (ReadExact.new (payload ++ trail) payload.length) bufSize =
        .ok (payload, ⟨trail, 0⟩) ∧
      ReadExact.into_inner ⟨trail, 0⟩ = trail) := by
  refine ⟨?_, ?_, ?_⟩
  · intro k h0
    exact readOp_zero (by omega)
  · intro out h
    obtain ⟨h1, h2, _⟩ := runReads_inv h
    exact ⟨h1, h2⟩
  · intro hb
    refine ⟨?_, rfl⟩
    have hc := copy_drain hb _ (ReadExact.new (payload ++ trail) payload.length)
      rfl (by simp only [ReadExact.new, List.length_append]; omega)
    simp only [ReadExact.new] at hc
    rw [List.take_left, List.drop_left] at hc
    exact hc

theorem claim_C2_witness :
    ReadExact.readOp ⟨[9, 9], 0⟩ 5 = .ok ([], ⟨[9, 9], 0⟩) ∧
    copy (ReadExact.new ([1, 2] ++ [7]) 2) 8192 = .ok ([1, 2], ⟨[7], 0⟩) := by
  have h := claim_C2 ⟨[9, 9], 0⟩ [5] [1, 2] [7] 8192
  exact ⟨h.1 5 rfl, (h.2.2 (by decide)).1⟩

/-- C3: every successful pull copied exactly the number of payload bytes
declared by the 8-byte length prefix into the destination file, and returns
that same count. -/
theorem claim_C3 (stream : Stream) (usizeMax bufSize cnt : Nat)
    (data : List Nat) (rest : Stream) (hb : 0 < bufSize)
    (h : pull_file stream usizeMax bufSize = .ok (cnt, data, rest)) :
    ∃ s1, readU64 stream = .ok (cnt, s1) ∧ data.length = cnt := by
  by_cases h8 : 8 ≤ stream.length
  · by_cases hmax : u64decode (stream.take 8) ≤ usizeMax
    · by_cases hlen : u64decode (stream.take 8) ≤ (stream.drop 8).length
      · rw [pull_file_drain hb h8 hmax hlen] at h
        injection h with heq
        have hc : cnt = u64decode (stream.take 8) :=
          (congrArg (fun p => p.1) heq).symm
        have hd : data = (stream.drop 8).take (u64decode (stream.take 8)) :=
          (congrArg (fun p => p.2.1) heq).symm
        refine ⟨stream.drop 8, ?_, ?_⟩
        · rw [readU64_ok h8, hc]
        · rw [hd, hc, List.length_take]
          omega
      · rw [pull_file_short hb h8 hmax (by omega)] at h
        exact Except.noConfusion h
    · rw [pull_file_toobig h8 (by omega)] at h
      exact Except.noConfusion h
  · rw [pull_file_no_header (by omega)] at h
    exact Except.noConfusion h

theorem claim_C3_witness :
    ∃ s1, readU64 (u64encode 2 ++ [4, 5]) = .ok (2, s1) ∧
      ([4, 5] : List Nat).length = 2 := by
  have hp : pull_file (u64encode 2 ++ [4, 5]) 100 8192 = .ok (2, [4, 5], []) :=
    @pull_file_drain (u64encode 2 ++ [4, 5]) 100 8192
      (by decide) (by decide) (by decide) (by decide)
  exact claim_C3 (u64encode 2 ++ [4, 5]) 100 8192 2 [4, 5] [] (by decide) hp

/-- C4: a Bounded Reader read in the Active state with buffer size k computes
n = min(k, remaining); n = 0 returns 0 bytes leaving everything untouched;
otherwise it takes exactly n bytes from the underlying stream when they are
available (decrementing remaining by n) and fails the whole read with
UnexpectedEof when they are not. -/
theorem claim_C4 (r : ReadExact) (k : Nat) (hact : 0 < r.remaining) :
    (min k r.remaining = 0 → r.readOp k = .ok ([], r)) ∧
    (0 < min k r.remaining → min k r.remaining ≤ r.read.length →
      r.readOp k = .ok (r.read.take (min k r.remaining),
        ⟨r.read.drop (min k r.remaining), r.remaining - min k r.remaining⟩)) ∧
    (0 < min k r.remaining → r.read.length < min k r.remaining →
      r.readOp k = .error .unexpectedEof) := by
  rw [Nat.min_comm k r.remaining]
  exact ⟨fun h => readOp_zero h, fun h1 h2 => readOp_success (by omega) h2,
    fun h1 h2 => readOp_eof (by omega) h2⟩

theorem claim_C4_witness :
    ReadExact.readOp ⟨[1, 2, 3], 2⟩ 1 = .ok ([1], ⟨[2, 3], 1⟩) := by
  have h := claim_C4 ⟨[1, 2, 3], 2⟩ 1 (by decide)
  exact h.2.1 (by decide) (by decide)

/-- C5: when the stream delivers fewer payload bytes than the declared length
L before ending, the Bounded-Reader-driven copy inside pull fails with
UnexpectedEof instead of succeeding with a smaller count. -/
theorem claim_C5 (stream : Stream) (usizeMax bufSize L : Nat) (s1 : Stream)
    (hb : 0 < bufSize) (hread : readU64 stream = .ok (L, s1))
    (hmax : L ≤ usizeMax) (hshort : s1.length < L) :
    pull_file stream usizeMax bufSize = .error .unexpectedEof := by
  obtain ⟨h8, hL, hs1⟩ := readU64_ok_inv hread
  subst hL
  subst hs1
  exact pull_file_short hb h8 hmax hshort

theorem claim_C5_witness :
    pull_file (u64encode 3 ++ [4, 5]) 100 8192 = .error .unexpectedEof := by
  exact claim_C5 (u64encode 3 ++ [4, 5]) 100 8192 3 [4, 5]
    (by decide) rfl (by decide) (by decide)

/-- C6: when the buffered copy in push transmits a byte count different from
the metadata length L, push fails fast with the assertion (DataIntegrity)
outcome, and push never returns success with a mismatched count. -/
theorem claim_C6 (metaLen : Nat) (content : List Nat) (usizeMax : Nat) :
    (metaLen ≠ content.length →
      push_file metaLen content usizeMax = .error .assertFailed) ∧
    (∀ n w, push_file metaLen content usizeMax = .ok (n, w) →
      metaLen = content.length ∧ n = content.length) := by
  refine ⟨push_file_mismatch, fun n w h => ?_⟩
  obtain ⟨h1, h2, _⟩ := push_file_ok_inv h
  exact ⟨h1, h2⟩

theorem claim_C6_witness :
    push_file 5 [1, 2, 3] 100 = .error .assertFailed :=
  (claim_C6 5 [1, 2, 3] 100).1 (by decide)

/-- C7: after streaming the payload, push reads exactly one byte from the
read half; it succeeds only when that byte is the CompletionSignal 0, any
other byte fails fast with the assertion outcome, and an already-closed
stream yields UnexpectedEof. -/
theorem claim_C7 (metaLen : Nat) (content : List Nat) (readStream : Stream)
    (usizeMax bufSize : Nat) (elapsed : ℚ) (bytes : Nat) (wire : List Nat)
    (hpush : push_file metaLen content usizeMax = .ok (bytes, wire)) :
    (readStream = [] →
      FileTransferCommand.perform (.Push metaLen content) readStream usizeMax
        bufSize elapsed = .error .unexpectedEof) ∧
    (∀ b rest, readStream = b :: rest →
      (b = CLOSE →
        FileTransferCommand.perform (.Push metaLen content) readStream usizeMax
          bufSize elapsed = .ok ⟨mkStats bytes elapsed, rest, wire⟩) ∧
      (b ≠ CLOSE →
        FileTransferCommand.perform (.Push metaLen content) readStream usizeMax
          bufSize elapsed = .error .assertFailed)) := by
  refine ⟨?_, ?_⟩
  · intro hempty
    subst hempty
    simp only [FileTransferCommand.perform]
    rw [hpush]
    rfl
  · intro b rest hcons
    subst hcons
    refine ⟨?_, ?_⟩
    · intro hb0
      subst hb0
      simp only [FileTransferCommand.perform]
      rw [hpush]
      simp [readU8]
    · intro hb0
      simp only [FileTransferCommand.perform]
      rw [hpush]
      simp [readU8, hb0]

theorem claim_C7_witness :
    FileTransferCommand.perform (.Push 1 [42]) [7] 100 8192 1
      = .error .assertFailed := by
  have h := claim_C7 1 [42] [7] 100 8192 1 1 (u64encode 1 ++ [42]) rfl
  exact (h.2 7 [] rfl).2 (by decide)

/-- C8: the length prefix is read as exactly 8 bytes forming an unsigned
fixed-width integer (a stream shorter than 8 bytes fails with UnexpectedEof,
and decode inverts the 8-byte encode below 2^64), and push writes the file
length as exactly 8 bytes before any payload byte. -/
theorem claim_C8 (s : Stream) (metaLen : Nat) (content : List Nat)
    (usizeMax n : Nat) (w : List Nat) :
    (s.length < 8 → readU64 s = .error .unexpectedEof) ∧
    (8 ≤ s.length → readU64 s = .ok (u64decode (s.take 8), s.drop 8)) ∧
    (∀ v, v < 2 ^ 64 → u64decode (u64encode v) = v ∧ (u64encode v).length = 8) ∧
    (push_file metaLen content usizeMax = .ok (n, w) →
      w = u64encode metaLen ++ content) :=
  ⟨readU64_short, readU64_ok,
    fun v hv => ⟨u64decode_encode hv, u64encode_length v⟩,
    fun h => (push_file_ok_inv h).2.2⟩

theorem claim_C8_witness :
    readU64 [1, 2] = .error .unexpectedEof :=
  (claim_C8 [1, 2] 0 [] 0 0 []).1 (by decide)

/-- C9: every successful transfer's stats satisfy
throughput_mib_s = bytes / t / 1048576 (the code divides by 1024 twice) and
latency_ms = t * 1000, with t the measured elapsed seconds. -/
theorem claim_C9 (cmd : FileTransferCommand) (readStream : Stream)
    (usizeMax bufSize : Nat) (t : ℚ) (res : FileTransferResult)
    (h : cmd.perform readStream usizeMax bufSize t = .ok res) :
    res.stats.throughput_mib_s = (res.stats.bytes : ℚ) / t / 1048576 ∧
    res.stats.latency_ms = t * 1000 := by
  have hstats := perform_ok_stats h
  rw [hstats]
  constructor
  · show (res.stats.bytes : ℚ) / t / 1024 / 1024 = _
    rw [div_div]
    norm_num [mkStats]
  · rfl

theorem claim_C9_witness :
    (⟨mkStats 1 1, [], u64encode 1 ++ [42]⟩ : FileTransferResult).stats.throughput_mib_s
      = ((⟨mkStats 1 1, [], u64encode 1 ++ [42]⟩ : FileTransferResult).stats.bytes : ℚ)
          / 1 / 1048576 ∧
    (⟨mkStats 1 1, [], u64encode 1 ++ [42]⟩ : FileTransferResult).stats.latency_ms
      = 1 * 1000 :=
  claim_C9 (.Push 1 [42]) [0] 100 8192 1 ⟨mkStats 1 1, [], u64encode 1 ++ [42]⟩ rfl

/-- C10: a pull whose declared 8-byte length exceeds the platform usize
maximum panics in the unwrapped conversion instead of returning a typed
error; pull only proceeds normally when the declared length fits in usize. -/
theorem claim_C10 (stream : Stream) (usizeMax bufSize L : Nat) (s1 : Stream)
    (hread : readU64 stream = .ok (L, s1)) (hmax : usizeMax < L) :
    pull_file stream usizeMax bufSize = .error .tryFromPanic := by
  obtain ⟨h8, hL, hs1⟩ := readU64_ok_inv hread
  subst hL
  exact pull_file_toobig h8 hmax

theorem claim_C10_witness :
    pull_file (u64encode 300 ++ [1]) 255 8192 = .error .tryFromPanic :=
  claim_C10 (u64encode 300 ++ [1]) 255 8192 300 [1] rfl (by decide)

end FileTransfer
